import Mathlib

/-!
Shallow embedding of the graph layout & interaction engine of the
knowledge-graph visualisation tool (React/D3 application), together with
proofs about it.

Conventions of the embedding:
* JavaScript string ids are `String`; JS string concatenation keys such as
  `s + "-" + t` are embedded literally.
* JS numbers are embedded as `ℚ` (the algorithms use only field operations
  and `Math.round`); `Math.round x` is `⌊x + 1/2⌋`.
* A JS record/object used as a dictionary is embedded as a total function
  updated with `Function.update`, default `0` / `[]`; the algorithms only
  read keys they have written (theorems carry the corresponding
  well-formedness hypotheses where this matters).
* An optional JS object property is `Option`; `Object.assign` copies a
  property only when the incoming object carries it.
* A JS `Set` built by insertion is a duplicate-free `List` in insertion
  order.
-/

namespace KG

/-- A graph link as it appears in the data model (`types.ts`): `source` and
`target` node ids, a `relation` label and an `effect` tag. -/
structure Link where
  source : String
  target : String
  relation : String
  effect : String
  deriving DecidableEq

/-- A graph node (`types.ts` `GraphNode`): required `id`/`label`/`group`,
optional `rank`, `sentiment` and D3 simulation fields. -/
structure GNode where
  id : String
  label : String := ""
  group : String := ""
  rank : Option ℚ := none
  sentiment : Option String := none
  x : Option ℚ := none
  y : Option ℚ := none
  vx : Option ℚ := none
  vy : Option ℚ := none
  fx : Option ℚ := none
  fy : Option ℚ := none
  deriving DecidableEq

/-! ### Ingestion boundary (`services/geminiService.ts`) -/

/-- The node-id set used by the ingestion check. -/
def nodeIds (nodes : List GNode) : List String := nodes.map (·.id)

/-- `validLinks` from `geminiService.ts` (used identically in
`fetchInitialGraph` and `generateGraphFromText`): keep a parsed link only
when both its endpoints occur in the accompanying node list. -/
def validLinks (nodes : List GNode) (links : List Link) : List Link :=
  links.filter (fun l => (nodeIds nodes).contains l.source && (nodeIds nodes).contains l.target)

/-! ### Parallel-edge (curvature) detection (`components/ForceGraph.tsx`) -/

/-- Lexicographic comparison of character lists: the JS `<` operator on
strings (code-unit lexicographic order). -/
def strLtB : List Char → List Char → Bool
  | [], [] => false
  | [], _ :: _ => true
  | _ :: _, [] => false
  | a :: as, b :: bs =>
    if a.toNat < b.toNat then true
    else if b.toNat < a.toNat then false
    else strLtB as bs

/-- JS `s < t` on strings. -/
def strLt (s t : String) : Bool := strLtB s.data t.data

/-- The order-independent endpoint-pair key used by `linkCounts`:
`s < t ? s-t : t-s`. -/
def unorderedKey (s t : String) : String :=
  if strLt s t then s ++ "-" ++ t else t ++ "-" ++ s

/-- `linkCounts` from `ForceGraph.tsx`: bucket edges by unordered endpoint
key and count the bucket sizes. -/
def linkCounts (links : List Link) : String → Nat :=
  links.foldl
    (fun m l =>
      Function.update m (unorderedKey l.source l.target)
        (m (unorderedKey l.source l.target) + 1))
    (fun _ => 0)

/-- The `isCurved` flag put on each display link in `ForceGraph.tsx`:
`linkCounts[key] > 1`. -/
def isCurved (links : List Link) (l : Link) : Bool :=
  decide (linkCounts links (unorderedKey l.source l.target) > 1)

/-! ### Merge protocol (`ForceGraph.tsx`, data merge step) -/

/-- Lookup in the `oldNodesMap` built with `new Map(...)`: for duplicate
keys the last entry wins, so we search the reversed list. -/
def mapGet (l : List GNode) (id : String) : Option GNode :=
  l.reverse.find? (fun o => o.id == id)

/-- `Object.assign(old, n)`: every property the incoming node `n` carries
overwrites the live node's; properties `n` does not carry are retained. -/
def assignNode (old n : GNode) : GNode :=
  { id := n.id, label := n.label, group := n.group,
    rank := n.rank <|> old.rank,
    sentiment := n.sentiment <|> old.sentiment,
    x := n.x <|> old.x, y := n.y <|> old.y,
    vx := n.vx <|> old.vx, vy := n.vy <|> old.vy,
    fx := n.fx <|> old.fx, fy := n.fy <|> old.fy }

/-- `mutableNodes` from `ForceGraph.tsx`: merge the incoming snapshot with
the nodes currently live in the simulation. -/
def mutableNodes (simNodes dataNodes : List GNode) : List GNode :=
  dataNodes.map (fun n =>
    match mapGet simNodes n.id with
    | some old => assignNode old n
    | none => n)

/-! ### Node border styling -/

/-- In/out-degree maps computed over the current edge set
(`ForceGraph.tsx`, topology analysis; identical in the legacy renderer). -/
def inDegreeF (links : List Link) : String → Nat :=
  links.foldl (fun m l => Function.update m l.target (m l.target + 1)) (fun _ => 0)

def outDegreeF (links : List Link) : String → Nat :=
  links.foldl (fun m l => Function.update m l.source (m l.source + 1)) (fun _ => 0)

structure NodeStyle where
  stroke : String
  width : ℚ
  r : ℚ
  filterName : String
  opacity : ℚ
  dash : String
  deriving DecidableEq

/-- The size part of `getNodeStyle` in `ForceGraph.tsx`: rank-driven when a
rank is present, topology fallback otherwise. -/
def baseRadius (inD outD : String → Nat) (d : GNode) : ℚ :=
  match d.rank with
  | some rk => 16 + rk * (2 / 10)
  | none =>
    if inD d.id > 5 ∨ outD d.id > 5 then 24
    else if inD d.id + outD d.id < 2 then 16
    else 18

/-- `getNodeStyle` from the active renderer `components/ForceGraph.tsx`:
sentiment overrides first, then path-sequence membership, then the default
white border. -/
def getNodeStyle (inD outD : String → Nat) (seq : List String) (d : GNode) : NodeStyle :=
  let baseR := baseRadius inD outD d
  if d.sentiment = some "bearish" then ⟨"#ef4444", 4, baseR, "none", 1, "none"⟩
  else if d.sentiment = some "bullish" then ⟨"#10b981", 4, baseR * (11 / 10), "none", 1, "none"⟩
  else if d.sentiment = some "volatile" then ⟨"#f59e0b", 4, baseR, "none", 1, "2,2"⟩
  else if seq.contains d.id then
    let index := seq.indexOf d.id
    if index = 0 then ⟨"#3b82f6", 4, baseR, "none", 1, "none"⟩
    else if index = seq.length - 1 then ⟨"#f97316", 4, baseR, "none", 1, "none"⟩
    else ⟨"#eab308", 4, baseR, "none", 1, "none"⟩
  else ⟨"#ffffff", 5 / 2, baseR, "none", 1, "none"⟩

/-- `getNodeStyle` from the legacy renderer (`src/unnamed/part_004`):
path-sequence membership first, then the source/sink topology rule. -/
def getNodeStyleLegacy (inD outD : String → Nat) (seq : List String) (id : String) :
    String × ℚ :=
  if seq.contains id then
    let index := seq.indexOf id
    if index = 0 then ("#3b82f6", 5)
    else if index = seq.length - 1 then ("#f97316", 5)
    else ("#eab308", 5)
  else
    if inD id = 0 ∧ outD id > 0 then ("#3b82f6", 4)
    else if outD id = 0 ∧ inD id > 0 then ("#f97316", 4)
    else ("#ffffff", 2)

/-! ### Highlight / filter opacity (`ForceGraph.tsx`, opacity effect) -/

inductive FilterState where
  | group (value : String)
  | effect (value : String)
  deriving DecidableEq

/-- `highlightedNodeIds && highlightedNodeIds.size > 0`. -/
def hasPathHighlight (hN : Option (List String)) : Bool :=
  match hN with
  | some l => decide (l.length > 0)
  | none => false

/-- `isNodeVisible` from the opacity effect. -/
def isNodeVisible (hN : Option (List String)) (fs : Option FilterState) (d : GNode) : Bool :=
  if hasPathHighlight hN then (hN.getD []).contains d.id
  else
    match fs with
    | some (.group v) => d.group == v
    | some (.effect _) => true
    | none => true

/-- `isLinkVisible` from the opacity effect. -/
def isLinkVisible (dataNodes : List GNode) (hN : Option (List String))
    (hL : Option (List String)) (fs : Option FilterState) (l : Link) : Bool :=
  if hasPathHighlight hN then
    match hL with
    | some keys => keys.contains (l.source ++ "-" ++ l.target)
    | none => false
  else
    match fs with
    | some (.group v) =>
      (match dataNodes.find? (fun n => n.id == l.source) with
        | some sn => sn.group == v
        | none => false) &&
      (match dataNodes.find? (fun n => n.id == l.target) with
        | some tn => tn.group == v
        | none => false)
    | some (.effect v) => l.effect == v
    | none => true

def nodeOpacity (hN : Option (List String)) (fs : Option FilterState) (d : GNode) : ℚ :=
  if isNodeVisible hN fs d then 1 else 15 / 100

def linkBaseOpacity (dataNodes : List GNode) (hN hL : Option (List String))
    (fs : Option FilterState) (l : Link) : ℚ :=
  if isLinkVisible dataNodes hN hL fs l then
    (if hasPathHighlight hN then 4 / 10 else 15 / 100)
  else 2 / 100

def linkFlowOpacity (dataNodes : List GNode) (hN hL : Option (List String))
    (fs : Option FilterState) (l : Link) : ℚ :=
  if isLinkVisible dataNodes hN hL fs l then
    (if hasPathHighlight hN then 1 else 8 / 10)
  else 5 / 100

/-! ### Pathfinding (`App.tsx`, `findShortestPath` and `pathResult`) -/

/-- The ordered link key `s-t` used for segment edge reporting. -/
def linkKey (s t : String) : String := s ++ "-" ++ t

/-- The undirected adjacency list built at the top of `findShortestPath`:
each link contributes both directions, keeping the link's own ordered key. -/
def nbrs (links : List Link) (v : String) : List (String × String) :=
  links.foldl
    (fun acc l =>
      let acc := if v = l.source then acc ++ [(l.target, linkKey l.source l.target)] else acc
      if v = l.target then acc ++ [(l.source, linkKey l.source l.target)] else acc)
    []

/-- A BFS queue entry: `{ current, pathNodes, pathLinks }`. -/
structure Frame where
  current : String
  pathNodes : List String
  pathLinks : List String
  deriving DecidableEq

/-- The inner neighbour loop of the BFS: push every not-yet-visited
neighbour onto the queue, marking it visited immediately. -/
def expandFrame (adjHere : List (String × String)) (f : Frame)
    (queue : List Frame) (visited : List String) : List Frame × List String :=
  adjHere.foldl
    (fun acc n =>
      if acc.2.contains n.1 then acc
      else (acc.1 ++ [⟨n.1, f.pathNodes ++ [n.1], f.pathLinks ++ [n.2]⟩], acc.2 ++ [n.1]))
    (queue, visited)

/-- The BFS main loop of `findShortestPath`, with explicit fuel.  The JS
loop runs while the queue is nonempty; each visited node is enqueued at
most once, so `bfsFuel` below strictly bounds the number of iterations and
the fuel never runs out (proved below). -/
def bfsAux (adjF : String → List (String × String)) (endId : String) :
    Nat → List Frame → List String → Option (List String × List String)
  | 0, _, _ => none
  | _ + 1, [], _ => none
  | fuel + 1, f :: qs, visited =>
    if f.current = endId then some (f.pathNodes, f.pathLinks)
    else
      let st := expandFrame (adjF f.current) f qs visited
      bfsAux adjF endId fuel st.1 st.2

def bfsFuel (links : List Link) : Nat := 2 * links.length + 2

/-- `findShortestPath` from `App.tsx`: BFS over the undirected adjacency
list; returns the first path reaching `endId` (its node list and ordered
link keys), or `none` when the queue empties. -/
def findShortestPath (startId endId : String) (links : List Link) :
    Option (List String × List String) :=
  bfsAux (nbrs links) endId (bfsFuel links) [⟨startId, [startId], []⟩] [startId]

/-- Insertion into a JS `Set` modelled as a duplicate-free list. -/
def insertNode (acc : List String) (x : String) : List String :=
  if x ∈ acc then acc else acc ++ [x]

def insertAll (acc : List String) (xs : List String) : List String :=
  xs.foldl insertNode acc

/-- The per-consecutive-pair segments computed by the `pathResult` loop. -/
def pathSegments (links : List Link) : List String → List (Option (List String × List String))
  | a :: b :: rest => findShortestPath a b links :: pathSegments links (b :: rest)
  | _ => []

/-- The fold of the `pathResult` loop body: union each successful segment's
node and link sets into the accumulators and count successes. -/
def segmentsFold (segs : List (Option (List String × List String))) :
    List String × List String × Nat :=
  segs.foldl
    (fun acc seg =>
      match seg with
      | some (ns, ls) => (insertAll acc.1 ns, insertAll acc.2.1 ls, acc.2.2 + 1)
      | none => acc)
    ([], [], 0)

/-- The number of segments that succeeded (`segmentsFound` in `App.tsx`). -/
def segmentsFound (seq : List String) (links : List Link) : Nat :=
  (segmentsFold (pathSegments links seq)).2.2

/-- `pathResult` from `App.tsx`: `null` for fewer than two waypoints;
otherwise union all successful segments, then unconditionally add every
waypoint id to the node set, and return `null` iff zero segments
succeeded. -/
def pathResult (seq : List String) (links : List Link) :
    Option (List String × List String) :=
  if seq.length < 2 then none
  else
    let acc := segmentsFold (pathSegments links seq)
    let allNodes := insertAll acc.1 seq
    if acc.2.2 > 0 then some (allNodes, acc.2.1) else none

/-! ### Ranking (`calculateNodeRanks`) -/

/-- `ranks` initialisation: every node's score starts at `1/N`. -/
def initRanks (nodes : List GNode) : String → ℚ :=
  nodes.foldl (fun r n => Function.update r n.id (1 / (nodes.length : ℚ))) (fun _ => 0)

/-- `inboundMap`: per node id, the list of source ids of links pointing to
it (a push happens only when the target id has an entry, i.e. is a node
id). -/
def inboundMap (nodes : List GNode) (links : List Link) : String → List String :=
  links.foldl
    (fun m l =>
      if (nodeIds nodes).contains l.target then
        Function.update m l.target (m l.target ++ [l.source])
      else m)
    (fun _ => [])

/-- `outDegree`: per id, the number of links having it as source. -/
def outDegreeR (links : List Link) : String → Nat :=
  links.foldl (fun m l => Function.update m l.source (m l.source + 1)) (fun _ => 0)

/-- `sinkRankSum`: the summed current score of all out-degree-0 nodes. -/
def sinkRankSum (nodes : List GNode) (links : List Link) (ranks : String → ℚ) : ℚ :=
  nodes.foldl (fun acc n => if outDegreeR links n.id = 0 then acc + ranks n.id else acc) 0

/-- The inbound sum of one node: `Σ ranks[src] / (outDegree[src] || 1)`. -/
def inboundSum (links : List Link) (ranks : String → ℚ) (inb : List String) : ℚ :=
  inb.foldl
    (fun acc src =>
      acc + ranks src / ((if outDegreeR links src = 0 then 1 else outDegreeR links src : Nat) : ℚ))
    0

/-- One iteration of the rank loop: build `newRanks` from the previous
`ranks` (never reading a value written in the same round). -/
def rankRound (nodes : List GNode) (links : List Link) (ranks : String → ℚ) : String → ℚ :=
  let sinkSum := sinkRankSum nodes links ranks
  nodes.foldl
    (fun newR n =>
      Function.update newR n.id
        ((1 - 85 / 100) / (nodes.length : ℚ) +
          85 / 100 * (inboundSum links ranks (inboundMap nodes links n.id) +
            sinkSum / (nodes.length : ℚ))))
    (fun _ => 0)

/-- The scores after `k` iterations of the loop. -/
def iterRanks (nodes : List GNode) (links : List Link) : Nat → (String → ℚ)
  | 0 => initRanks nodes
  | k + 1 => rankRound nodes links (iterRanks nodes links k)

/-- `Object.values(ranks)` after the final round: one score per record key
(node ids in first-insertion order). -/
def finalScores (nodes : List GNode) (links : List Link) : List ℚ :=
  ((nodeIds nodes).dedup).map (iterRanks nodes links 20)

def listMax : List ℚ → ℚ
  | [] => 0
  | x :: xs => xs.foldl max x

def listMin : List ℚ → ℚ
  | [] => 0
  | x :: xs => xs.foldl min x

/-- `Math.round x = ⌊x + 1/2⌋`. -/
def jsRound (q : ℚ) : ℤ := ⌊q + 1 / 2⌋

/-- `calculateNodeRanks` from `utils/graphAlgorithms` (bundled in
`types.ts`): run 20 damped rank rounds, then rescale linearly so the
minimum score maps to 0 and the maximum to 100 (`range || 1` guards the
all-equal case), rounding each rank. -/
def calculateNodeRanks (nodes : List GNode) (links : List Link) : List GNode :=
  if nodes.length = 0 then nodes
  else
    let ranks := iterRanks nodes links 20
    let maxRank := listMax (finalScores nodes links)
    let minRank := listMin (finalScores nodes links)
    let range := if maxRank - minRank = 0 then 1 else maxRank - minRank
    nodes.map (fun n => { n with rank := some ((jsRound ((ranks n.id - minRank) / range * 100) : ℤ) : ℚ) })

/-- Modelled from the spec (§4.2) for the refinement claim about the
ranking round: `newScore = (1 − d)/N + d × (Σ inbound neighbourScore /
neighbourOutDegree + sinkMass/N)` with `sinkMass` summed from the current
scores of all out-degree-0 nodes. -/
def specRound (nodes : List GNode) (links : List Link) (score : String → ℚ) (id : String) : ℚ :=
  (1 - 85 / 100) / (nodes.length : ℚ) +
    85 / 100 *
      (((inboundMap nodes links id).map (fun src => score src / (outDegreeR links src : ℚ))).sum +
        (((nodeIds nodes).filter (fun i => outDegreeR links i = 0)).map score).sum /
          (nodes.length : ℚ))

/-- Modelled from the spec (§4.2): every score starts at `1/N`. -/
def specInit (nodes : List GNode) : String → ℚ := fun _ => 1 / (nodes.length : ℚ)

/-! ### Path predicates for the BFS correctness statements -/

/-- `b` is an adjacency-successor of `a`. -/
def isStepB (adjF : String → List (String × String)) (a b : String) : Bool :=
  ((adjF a).map Prod.fst).contains b

/-- All consecutive pairs of the list are adjacency steps. -/
def chainB (adjF : String → List (String × String)) : List String → Bool
  | [] => true
  | [_] => true
  | a :: b :: rest => isStepB adjF a b && chainB adjF (b :: rest)

/-- `p` is a walk from `s` to `e` in the adjacency structure. -/
def isPathB (adjF : String → List (String × String)) (s e : String) (p : List String) : Bool :=
  (p.head? == some s) && (p.getLast? == some e) && chainB adjF p

def IsPath (adjF : String → List (String × String)) (s e : String) (p : List String) : Prop :=
  isPathB adjF s e p = true

instance (adjF : String → List (String × String)) (s e : String) (p : List String) :
    Decidable (IsPath adjF s e p) :=
  inferInstanceAs (Decidable (isPathB adjF s e p = true))

/-- All node ids mentioned by the link list. -/
def linkVerts (links : List Link) : List String :=
  links.foldr (fun l acc => l.source :: l.target :: acc) []

/-- The vertex universe of one BFS run: the start id together with every
link endpoint (deduplicated). -/
def verts (startId : String) (links : List Link) : List String :=
  (startId :: linkVerts links).dedup

/-- Loop measure of the BFS: pending queue entries plus not-yet-visited
vertices.  It strictly decreases at every iteration. -/
def bfsMeasure (U : List String) (queue : List Frame) (visited : List String) : Nat :=
  queue.length + (U.length - visited.length)

/-- The BFS loop invariant.  `U` is a finite universe containing every id
the search can touch. -/
structure BfsInv (adjF : String → List (String × String)) (s endId : String) (U : List String)
    (queue : List Frame) (visited : List String) : Prop where
  vnodup : visited.Nodup
  vsub : ∀ v ∈ visited, v ∈ U
  smem : s ∈ visited
  frames : ∀ f ∈ queue, IsPath adjF s f.current f.pathNodes ∧ f.current ∈ visited
  optimal : ∀ f ∈ queue, ∀ q, IsPath adjF s f.current q → f.pathNodes.length ≤ q.length
  sorted : queue.Pairwise (fun f g => f.pathNodes.length ≤ g.pathNodes.length)
  level : ∀ f ∈ queue, ∀ g ∈ queue, f.pathNodes.length ≤ g.pathNodes.length + 1
  pending : ∀ u ∈ visited, (∃ f ∈ queue, f.current = u) ∨ (∀ p ∈ adjF u, p.1 ∈ visited)
  endTracked : endId ∈ visited → ∃ f ∈ queue, f.current = endId

/-- The invariant maintained while the neighbour fold of one popped frame
(current id `fc`, path length `L`) is running. -/
structure MidInv (adjF : String → List (String × String)) (s endId : String) (U : List String)
    (fc : String) (L : Nat) (queue : List Frame) (visited : List String) : Prop where
  vnodup : visited.Nodup
  vsub : ∀ v ∈ visited, v ∈ U
  smem : s ∈ visited
  frames : ∀ f ∈ queue, IsPath adjF s f.current f.pathNodes ∧ f.current ∈ visited
  optimal : ∀ f ∈ queue, ∀ q, IsPath adjF s f.current q → f.pathNodes.length ≤ q.length
  bounds : ∀ f ∈ queue, L ≤ f.pathNodes.length ∧ f.pathNodes.length ≤ L + 1
  sorted : queue.Pairwise (fun f g => f.pathNodes.length ≤ g.pathNodes.length)
  pending : ∀ u ∈ visited,
    (∃ f ∈ queue, f.current = u) ∨ u = fc ∨ (∀ p ∈ adjF u, p.1 ∈ visited)
  endTracked : endId ∈ visited → ∃ f ∈ queue, f.current = endId

/-! ### Concrete data used in scenario checks -/

/-- The path graph A–B–C–D. -/
def chainLinks : List Link :=
  [⟨"A", "B", "r1", "neutral"⟩, ⟨"B", "C", "r2", "neutral"⟩, ⟨"C", "D", "r3", "neutral"⟩]

/-- The 5-ring A–B–C–D–E–A. -/
def ringLinks : List Link :=
  chainLinks ++ [⟨"D", "E", "r4", "neutral"⟩, ⟨"E", "A", "r5", "neutral"⟩]

def loopLink : Link := ⟨"A", "A", "self", "neutral"⟩

def abLink : Link := ⟨"A", "B", "r1", "neutral"⟩

def baLink : Link := ⟨"B", "A", "r2", "neutral"⟩

def abLink2 : Link := ⟨"A", "B", "r2", "neutral"⟩

/-- A node live in the simulation with a settled position. -/
def simNodeA : GNode := { id := "a", x := some 5, y := some 7 }

/-- An incoming snapshot node that itself carries a position (exactly what
`handleAddResearchToGraph` in `App.tsx` produces: `x: 0, y: 0`). -/
def snapNodeA : GNode := { id := "a", x := some 0, y := some 0 }

def simNodeB : GNode := { id := "b", x := some 3, y := some 4, vx := some 1, vy := some 2 }

/-- An incoming snapshot node carrying only data fields. -/
def snapNodeB : GNode := { id := "b", label := "B", group := "Equity", rank := some 10 }

def c8Links : List Link := [⟨"a", "b", "r", "neutral"⟩]

def c8SourceNode : GNode := { id := "a" }

def c8IsoNode : GNode := { id := "c" }

/-- Ranking witness graph without sinks and with asymmetric in-structure. -/
def wNodes3 : List GNode := [{ id := "a" }, { id := "b" }, { id := "c" }]

def wLinks3 : List Link :=
  [⟨"c", "a", "r", "neutral"⟩, ⟨"a", "b", "r", "neutral"⟩, ⟨"b", "a", "r", "neutral"⟩]

/-- A single isolated node (the degenerate ranking case). -/
def wSingle : List GNode := [{ id := "s" }]

/-! ## Theorems -/

theorem linkCounts_eq_countP (links : List Link) (k : String) :
    linkCounts links k =
      links.countP (fun l => unorderedKey l.source l.target == k) := by
  suffices h : ∀ (base : String → Nat),
      links.foldl
        (fun m l =>
          Function.update m (unorderedKey l.source l.target)
            (m (unorderedKey l.source l.target) + 1)) base k =
        base k + links.countP (fun l => unorderedKey l.source l.target == k) by
    simpa [linkCounts] using h (fun _ => 0)
  induction links with
  | nil => intro base; simp
  | cons l ls ih =>
    intro base
    rw [List.foldl_cons, ih, List.countP_cons]
    by_cases hk : unorderedKey l.source l.target = k
    · subst hk; simp [Function.update_same]; omega
    · simp [Function.update_noteq (Ne.symm hk), hk]

theorem mem_validLinks (nodes : List GNode) (links : List Link) (l : Link) :
    l ∈ validLinks nodes links ↔
      l ∈ links ∧ l.source ∈ nodeIds nodes ∧ l.target ∈ nodeIds nodes := by
  simp [validLinks, List.mem_filter, and_assoc]

/-- Claim C9: every edge whose source or target id does not occur in the
accompanying node list is dropped by the ingestion filter (`validLinks`)
before the data reaches the engine, and every edge whose both endpoints
exist is kept; the filter is total (never throws) and only removes
elements. -/
theorem c9_ingestion_filter :
    (∀ (nodes : List GNode) (links : List Link) (l : Link),
        l ∈ validLinks nodes links ↔
          l ∈ links ∧ l.source ∈ nodeIds nodes ∧ l.target ∈ nodeIds nodes)
    ∧ ∀ (nodes : List GNode) (links : List Link),
        (validLinks nodes links).Sublist links := by
  refine ⟨fun nodes links l => ?_, fun nodes links => List.filter_sublist _⟩
  simp [validLinks, List.mem_filter, and_assoc]

/-- Claim C6 counterexample: a self-loop appearing once is flagged
straight by the code (`linkCounts[key] > 1` fails at count 1), while the
claim says it is flagged curved. -/
theorem c6_counterexample :
    isCurved [loopLink] loopLink = false ∧
    linkCounts [loopLink] (unorderedKey "A" "A") = 1 := by decide

/-- Claim C6 (amended): an edge is flagged curved exactly when its
order-independent endpoint-pair bucket contains more than one edge (two
edges A→B and B→A are both curved, as are two A→B edges with different
relations); a single A→B edge with no sibling is straight, and so is a
self-loop appearing once. -/
theorem c6_curved_iff :
    (∀ (links : List Link) (l : Link),
        isCurved links l = true ↔
          1 < links.countP
            (fun e => unorderedKey e.source e.target == unorderedKey l.source l.target))
    ∧ (isCurved [abLink, baLink] abLink = true ∧ isCurved [abLink, baLink] baLink = true)
    ∧ (isCurved [abLink, abLink2] abLink = true ∧ isCurved [abLink, abLink2] abLink2 = true)
    ∧ isCurved [abLink] abLink = false := by
  refine ⟨fun links l => ?_, by decide, by decide, by decide⟩
  simp [isCurved, linkCounts_eq_countP]

/-- Claim C7 counterexample: a node present in both the live simulation
and the incoming snapshot does not keep its position when the snapshot
node itself carries position fields (as research-added nodes with
`x: 0, y: 0` do): `Object.assign(old, n)` overwrites them. -/
theorem c7_counterexample :
    mapGet [simNodeA] snapNodeA.id = some simNodeA ∧
    ¬ ((mutableNodes [simNodeA] [snapNodeA]).map (·.x) = [simNodeA.x]) ∧
    (mutableNodes [simNodeA] [snapNodeA]).map (·.x) = [some 0] := by
  with_unfolding_all decide

/-- Claim C7 (amended): for a node present both in the live simulation and
in the incoming snapshot, the merge overwrites only the fields the
incoming record carries; provided the incoming record carries no
position/velocity fields, the merged node keeps the live node's
position, velocity and drag pin. -/
theorem c7_merge_keeps_position :
    ∀ (simNodes dataNodes : List GNode) (n old : GNode),
      n ∈ dataNodes → mapGet simNodes n.id = some old →
      n.x = none → n.y = none → n.vx = none → n.vy = none →
      n.fx = none → n.fy = none →
      ∃ m ∈ mutableNodes simNodes dataNodes,
        m.id = n.id ∧ m.label = n.label ∧ m.group = n.group ∧
        m.x = old.x ∧ m.y = old.y ∧ m.vx = old.vx ∧ m.vy = old.vy ∧
        m.fx = old.fx ∧ m.fy = old.fy := by
  intro simNodes dataNodes n old hn hget hx hy hvx hvy hfx hfy
  refine ⟨assignNode old n, ?_, ?_⟩
  · rw [mutableNodes, List.mem_map]
    exact ⟨n, hn, by rw [hget]⟩
  · simp [assignNode, hx, hy, hvx, hvy, hfx, hfy]

theorem c7_witness :
    (snapNodeB ∈ [snapNodeB] ∧ mapGet [simNodeB] snapNodeB.id = some simNodeB ∧
      snapNodeB.x = none ∧ snapNodeB.y = none ∧ snapNodeB.vx = none ∧ snapNodeB.vy = none ∧
      snapNodeB.fx = none ∧ snapNodeB.fy = none) ∧
    ∃ m ∈ mutableNodes [simNodeB] [snapNodeB],
      m.id = snapNodeB.id ∧ m.label = snapNodeB.label ∧ m.group = snapNodeB.group ∧
      m.x = simNodeB.x ∧ m.y = simNodeB.y ∧ m.vx = simNodeB.vx ∧ m.vy = simNodeB.vy ∧
      m.fx = simNodeB.fx ∧ m.fy = simNodeB.fy :=
  ⟨by with_unfolding_all decide,
    c7_merge_keeps_position [simNodeB] [snapNodeB] snapNodeB simNodeB
      (by decide) (by with_unfolding_all decide) rfl rfl rfl rfl rfl rfl⟩

/-- Claim C8 counterexample: in the active renderer
(`components/ForceGraph.tsx`) a node with out-degree > 0 and in-degree = 0
(no status, not a waypoint) gets the same default `#ffffff` border as an
isolated node — there is no distinct "source" border colour tier. -/
theorem c8_counterexample :
    inDegreeF c8Links "a" = 0 ∧ outDegreeF c8Links "a" = 1 ∧
    c8SourceNode.sentiment = none ∧
    (getNodeStyle (inDegreeF c8Links) (outDegreeF c8Links) [] c8SourceNode).stroke = "#ffffff" ∧
    (getNodeStyle (inDegreeF c8Links) (outDegreeF c8Links) [] c8SourceNode).stroke =
      (getNodeStyle (inDegreeF c8Links) (outDegreeF c8Links) [] c8IsoNode).stroke := by
  decide

/-- Claim C8 (amended): in the active renderer the border is decided by an
externally-set sentiment status first, then by membership in the waypoint
sequence (distinct first/last/interior styling), then a uniform default —
degrees never affect the border colour there; the source/sink topology
border rule exists only in the legacy renderer (`src/unnamed/part_004`),
where waypoint-sequence membership takes priority over it and there is no
status tier. -/
theorem c8_style_priority :
    (∀ (inD outD : String → Nat) (seq : List String) (d : GNode),
        d.sentiment = some "bearish" →
        getNodeStyle inD outD seq d =
          ⟨"#ef4444", 4, baseRadius inD outD d, "none", 1, "none"⟩)
    ∧ (∀ (inD outD : String → Nat) (seq : List String) (d : GNode),
        d.sentiment = some "bullish" →
        getNodeStyle inD outD seq d =
          ⟨"#10b981", 4, baseRadius inD outD d * (11 / 10), "none", 1, "none"⟩)
    ∧ (∀ (inD outD : String → Nat) (seq : List String) (d : GNode),
        d.sentiment = some "volatile" →
        getNodeStyle inD outD seq d =
          ⟨"#f59e0b", 4, baseRadius inD outD d, "none", 1, "2,2"⟩)
    ∧ (∀ (inD outD : String → Nat) (seq : List String) (d : GNode),
        d.sentiment = none → seq.contains d.id = true →
        getNodeStyle inD outD seq d =
          (if seq.indexOf d.id = 0 then
            (⟨"#3b82f6", 4, baseRadius inD outD d, "none", 1, "none"⟩ : NodeStyle)
          else if seq.indexOf d.id = seq.length - 1 then
            ⟨"#f97316", 4, baseRadius inD outD d, "none", 1, "none"⟩
          else ⟨"#eab308", 4, baseRadius inD outD d, "none", 1, "none"⟩))
    ∧ (∀ (inD outD : String → Nat) (seq : List String) (d : GNode),
        d.sentiment = none → seq.contains d.id = false →
        getNodeStyle inD outD seq d =
          ⟨"#ffffff", 5 / 2, baseRadius inD outD d, "none", 1, "none"⟩)
    ∧ (∀ (inD outD : String → Nat) (seq : List String) (id : String),
        seq.contains id = false →
        getNodeStyleLegacy inD outD seq id =
          (if inD id = 0 ∧ outD id > 0 then ("#3b82f6", 4)
          else if outD id = 0 ∧ inD id > 0 then ("#f97316", 4)
          else ("#ffffff", 2)))
    ∧ (∀ (inD outD : String → Nat) (seq : List String) (id : String),
        seq.contains id = true →
        getNodeStyleLegacy inD outD seq id =
          (if seq.indexOf id = 0 then ("#3b82f6", 5)
          else if seq.indexOf id = seq.length - 1 then ("#f97316", 5)
          else ("#eab308", 5))) := by
  refine ⟨?_, ?_, ?_, ?_, ?_, ?_, ?_⟩
  · intro inD outD seq d h; simp [getNodeStyle, h]
  · intro inD outD seq d h; simp [getNodeStyle, h]
  · intro inD outD seq d h; simp [getNodeStyle, h]
  · intro inD outD seq d h hseq
    have hmem : d.id ∈ seq := by simpa using hseq
    simp [getNodeStyle, h, hmem]
  · intro inD outD seq d h hseq
    have hmem : d.id ∉ seq := by simpa using hseq
    simp [getNodeStyle, h, hmem]
  · intro inD outD seq id hseq
    have hmem : id ∉ seq := by simpa using hseq
    simp [getNodeStyleLegacy, hmem]
  · intro inD outD seq id hseq
    have hmem : id ∈ seq := by simpa using hseq
    simp [getNodeStyleLegacy, hmem]

theorem c8_witness :
    (c8SourceNode.sentiment = none ∧
      (([] : List String)).contains c8SourceNode.id = false ∧
      getNodeStyle (inDegreeF c8Links) (outDegreeF c8Links) [] c8SourceNode =
        ⟨"#ffffff", 5 / 2, baseRadius (inDegreeF c8Links) (outDegreeF c8Links) c8SourceNode,
          "none", 1, "none"⟩) ∧
    ((["a"] : List String).contains "a" = true ∧
      getNodeStyleLegacy (inDegreeF c8Links) (outDegreeF c8Links) ["a"] "a" = ("#3b82f6", 5)) :=
  ⟨⟨rfl, rfl,
      c8_style_priority.2.2.2.2.1 (inDegreeF c8Links) (outDegreeF c8Links) [] c8SourceNode
        rfl rfl⟩,
    ⟨by decide, by
      have h := c8_style_priority.2.2.2.2.2.2 (inDegreeF c8Links) (outDegreeF c8Links)
        ["a"] "a" (by decide)
      simpa using h⟩⟩

/-- Claim C10: with an active path highlight, visibility and opacity are
decided solely by membership in the highlighted sets, regardless of any
attribute filter; with no highlight, a category filter shows an edge only
when both endpoints' groups match, and an effect filter shows an edge
exactly when its effect matches, independent of the endpoints. -/
theorem c10_opacity_rules :
    (∀ (hN : Option (List String)) (fs fs' : Option FilterState) (d : GNode),
        hasPathHighlight hN = true →
        (isNodeVisible hN fs d = (hN.getD []).contains d.id ∧
          isNodeVisible hN fs d = isNodeVisible hN fs' d ∧
          nodeOpacity hN fs d = (if (hN.getD []).contains d.id then 1 else 15 / 100)))
    ∧ (∀ (dataNodes : List GNode) (hN hL : Option (List String)) (fs fs' : Option FilterState)
          (l : Link),
        hasPathHighlight hN = true →
        (isLinkVisible dataNodes hN hL fs l =
            (hL.getD []).contains (l.source ++ "-" ++ l.target) ∧
          isLinkVisible dataNodes hN hL fs l = isLinkVisible dataNodes hN hL fs' l ∧
          linkFlowOpacity dataNodes hN hL fs l =
            (if (hL.getD []).contains (l.source ++ "-" ++ l.target) then 1 else 5 / 100) ∧
          linkBaseOpacity dataNodes hN hL fs l =
            (if (hL.getD []).contains (l.source ++ "-" ++ l.target) then 4 / 10 else 2 / 100)))
    ∧ (∀ (dataNodes : List GNode) (hN hL : Option (List String)) (v : String) (l : Link),
        hasPathHighlight hN = false →
        (isLinkVisible dataNodes hN hL (some (.group v)) l = true ↔
          (∃ sn, dataNodes.find? (fun n => n.id == l.source) = some sn ∧ sn.group = v) ∧
          (∃ tn, dataNodes.find? (fun n => n.id == l.target) = some tn ∧ tn.group = v)))
    ∧ (∀ (dataNodes dataNodes' : List GNode) (hN hL hL' : Option (List String)) (v : String)
          (l : Link),
        hasPathHighlight hN = false →
        (isLinkVisible dataNodes hN hL (some (.effect v)) l = (l.effect == v) ∧
          isLinkVisible dataNodes hN hL (some (.effect v)) l =
            isLinkVisible dataNodes' hN hL' (some (.effect v)) l)) := by
  refine ⟨?_, ?_, ?_, ?_⟩
  · intro hN fs fs' d h
    refine ⟨?_, ?_, ?_⟩ <;> simp [isNodeVisible, nodeOpacity, h]
  · intro dataNodes hN hL fs fs' l h
    refine ⟨?_, ?_, ?_, ?_⟩ <;>
      cases hL <;> simp [isLinkVisible, linkFlowOpacity, linkBaseOpacity, h]
  · intro dataNodes hN hL v l h
    cases hs : dataNodes.find? (fun n => n.id == l.source) <;>
      cases ht : dataNodes.find? (fun n => n.id == l.target) <;>
        simp [isLinkVisible, h, hs, ht, beq_iff_eq]
  · intro dataNodes dataNodes' hN hL hL' v l h
    exact ⟨by simp [isLinkVisible, h], by simp [isLinkVisible, h]⟩

theorem c10_witness :
    (hasPathHighlight (some ["n1"]) = true ∧
      isNodeVisible (some ["n1"]) (some (.group "Equity")) { id := "n1" } =
        ((some ["n1"] : Option (List String)).getD []).contains "n1") ∧
    (hasPathHighlight none = false ∧
      isLinkVisible [] none none (some (.effect "positive")) abLink =
        (abLink.effect == "positive")) :=
  ⟨⟨by decide,
      (c10_opacity_rules.1 (some ["n1"]) (some (.group "Equity")) none { id := "n1" }
        (by decide)).1⟩,
    ⟨rfl,
      (c10_opacity_rules.2.2.2 [] [] none none none "positive" abLink rfl).1⟩⟩

theorem mem_insertNode (acc : List String) (y x : String) :
    x ∈ insertNode acc y ↔ x ∈ acc ∨ x = y := by
  unfold insertNode
  by_cases hy : y ∈ acc
  · rw [if_pos hy]
    constructor
    · exact Or.inl
    · rintro (h | rfl)
      · exact h
      · exact hy
  · rw [if_neg hy]; simp

theorem mem_insertAll (xs : List String) :
    ∀ (acc : List String) (x : String), x ∈ insertAll acc xs ↔ x ∈ acc ∨ x ∈ xs := by
  induction xs with
  | nil => intro acc x; simp [insertAll]
  | cons y ys ih =>
    intro acc x
    have step : insertAll acc (y :: ys) = insertAll (insertNode acc y) ys := rfl
    rw [step, ih, mem_insertNode]
    simp [List.mem_cons]
    tauto

/-- Claim C1: for a waypoint sequence of at least two nodes, the result
(when some) contains every waypoint id in its node set — even one that
could not be connected to its neighbours — and `pathResult` returns
`none` exactly when zero segments succeeded, so one successful segment
among many still yields a partial result. -/
theorem c1_path_result :
    ∀ (seq : List String) (links : List Link), 2 ≤ seq.length →
      ((pathResult seq links = none ↔ segmentsFound seq links = 0) ∧
        ∀ r, pathResult seq links = some r → ∀ w ∈ seq, w ∈ r.1) := by
  intro seq links hlen
  have hlt : ¬ seq.length < 2 := by omega
  constructor
  · rw [pathResult, if_neg hlt, segmentsFound]
    by_cases hc : (segmentsFold (pathSegments links seq)).2.2 > 0
    · rw [if_pos hc]
      simp only [reduceCtorEq, false_iff]
      omega
    · rw [if_neg hc]
      simp only [true_iff]
      omega
  · intro r hr w hw
    rw [pathResult, if_neg hlt] at hr
    by_cases hc : (segmentsFold (pathSegments links seq)).2.2 > 0
    · rw [if_pos hc] at hr
      cases hr
      exact (mem_insertAll seq _ w).mpr (Or.inr hw)
    · rw [if_neg hc] at hr
      cases hr

/-! ### Ranking lemmas -/

theorem foldl_update_keyfun (g : String → ℚ) :
    ∀ (ns : List GNode) (base : String → ℚ) (id : String),
      (ns.foldl (fun m n => Function.update m n.id (g n.id)) base) id =
        if id ∈ ns.map (·.id) then g id else base id := by
  intro ns
  induction ns with
  | nil => intro base id; simp
  | cons n rest ih =>
    intro base id
    rw [List.foldl_cons, ih]
    by_cases hmem : id ∈ rest.map (·.id)
    · simp [hmem]
    · by_cases heq : id = n.id
      · subst heq
        simp [hmem, Function.update_same]
      · simp [hmem, heq, Function.update_noteq heq]

theorem initRanks_eval (nodes : List GNode) (id : String) (h : id ∈ nodeIds nodes) :
    initRanks nodes id = 1 / (nodes.length : ℚ) := by
  have key : initRanks nodes id =
      if id ∈ nodes.map (·.id) then 1 / (nodes.length : ℚ) else (fun _ => (0 : ℚ)) id :=
    foldl_update_keyfun (fun _ => 1 / (nodes.length : ℚ)) nodes (fun _ => 0) id
  have h' : id ∈ nodes.map (·.id) := h
  rw [key, if_pos h']

theorem rankRound_eval (nodes : List GNode) (links : List Link) (ranks : String → ℚ)
    (id : String) (h : id ∈ nodeIds nodes) :
    rankRound nodes links ranks id =
      (1 - 85 / 100) / (nodes.length : ℚ) +
        85 / 100 * (inboundSum links ranks (inboundMap nodes links id) +
          sinkRankSum nodes links ranks / (nodes.length : ℚ)) := by
  have key : rankRound nodes links ranks id =
      if id ∈ nodes.map (·.id) then
        (1 - 85 / 100) / (nodes.length : ℚ) +
          85 / 100 * (inboundSum links ranks (inboundMap nodes links id) +
            sinkRankSum nodes links ranks / (nodes.length : ℚ))
      else (fun _ => (0 : ℚ)) id :=
    foldl_update_keyfun
      (fun i =>
        (1 - 85 / 100) / (nodes.length : ℚ) +
          85 / 100 * (inboundSum links ranks (inboundMap nodes links i) +
            sinkRankSum nodes links ranks / (nodes.length : ℚ)))
      nodes (fun _ => 0) id
  have h' : id ∈ nodes.map (·.id) := h
  rw [key, if_pos h']

theorem outDegreeR_eq_countP (links : List Link) (v : String) :
    outDegreeR links v = links.countP (fun l => l.source == v) := by
  suffices h : ∀ base : String → Nat,
      (links.foldl (fun m l => Function.update m l.source (m l.source + 1)) base) v =
        base v + links.countP (fun l => l.source == v) by
    simpa [outDegreeR] using h (fun _ => 0)
  induction links with
  | nil => intro base; simp
  | cons l ls ih =>
    intro base
    rw [List.foldl_cons, ih, List.countP_cons]
    by_cases hk : l.source = v
    · subst hk; simp [Function.update_same]; omega
    · simp [Function.update_noteq (Ne.symm hk), hk]

theorem inboundMap_eval (nodes : List GNode) (links : List Link) (id : String) :
    inboundMap nodes links id =
      (links.filter
        (fun l => l.target == id && (nodeIds nodes).contains l.target)).map (·.source) := by
  suffices h : ∀ base : String → List String,
      (links.foldl
        (fun (m : String → List String) (l : Link) =>
          if (nodeIds nodes).contains l.target then
            Function.update m l.target (m l.target ++ [l.source])
          else m) base) id =
        base id ++
          (links.filter
            (fun l => l.target == id && (nodeIds nodes).contains l.target)).map (·.source) by
    simpa [inboundMap] using h (fun _ => [])
  induction links with
  | nil => intro base; simp
  | cons l ls ih =>
    intro base
    rw [List.foldl_cons, ih, List.filter_cons]
    by_cases ht : l.target ∈ nodeIds nodes
    · have htc : (nodeIds nodes).contains l.target = true := by simpa using ht
      rw [if_pos htc]
      by_cases hid : l.target = id
      · subst hid
        rw [Function.update_same]
        have hcond : (l.target == l.target && (nodeIds nodes).contains l.target) = true := by
          simp [ht]
        rw [if_pos hcond]
        simp
      · rw [Function.update_noteq (Ne.symm hid)]
        rw [if_neg (by simp; intro heq; exact absurd heq hid)]
    · have htc : (nodeIds nodes).contains l.target = false := by simpa using ht
      rw [if_neg (by simp; exact ht)]
      rw [if_neg (by simp; intro _; exact ht)]

theorem inboundMap_source_mem (nodes : List GNode) (links : List Link) (id src : String)
    (h : src ∈ inboundMap nodes links id) :
    ∃ l ∈ links, l.source = src := by
  rw [inboundMap_eval] at h
  obtain ⟨l, hl, hsrc⟩ := List.mem_map.mp h
  exact ⟨l, (List.mem_filter.mp hl).1, hsrc⟩

theorem outDegree_pos_of_inbound (nodes : List GNode) (links : List Link) (id src : String)
    (h : src ∈ inboundMap nodes links id) :
    0 < outDegreeR links src := by
  obtain ⟨l, hl, hsrc⟩ := inboundMap_source_mem nodes links id src h
  rw [outDegreeR_eq_countP]
  exact List.countP_pos_iff.mpr ⟨l, hl, by simp [hsrc]⟩

theorem inboundSum_eq_sum (links : List Link) (ranks : String → ℚ) (inb : List String) :
    inboundSum links ranks inb =
      (inb.map (fun src => ranks src /
        ((if outDegreeR links src = 0 then 1 else outDegreeR links src : ℕ) : ℚ))).sum := by
  suffices h : ∀ base : ℚ,
      (inb.foldl
        (fun acc src =>
          acc + ranks src /
            ((if outDegreeR links src = 0 then 1 else outDegreeR links src : ℕ) : ℚ)) base) =
        base + (inb.map (fun src => ranks src /
          ((if outDegreeR links src = 0 then 1 else outDegreeR links src : ℕ) : ℚ))).sum by
    simpa [inboundSum] using h 0
  induction inb with
  | nil => intro base; simp
  | cons src rest ih =>
    intro base
    rw [List.foldl_cons, ih, List.map_cons, List.sum_cons]
    ring

theorem sinkRankSum_eq_sum (nodes : List GNode) (links : List Link) (ranks : String → ℚ) :
    sinkRankSum nodes links ranks =
      (((nodeIds nodes).filter (fun i => outDegreeR links i = 0)).map ranks).sum := by
  suffices h : ∀ base : ℚ,
      (nodes.foldl
        (fun acc n => if outDegreeR links n.id = 0 then acc + ranks n.id else acc) base) =
        base + (((nodeIds nodes).filter (fun i => outDegreeR links i = 0)).map ranks).sum by
    simpa [sinkRankSum] using h 0
  induction nodes with
  | nil => intro base; simp [nodeIds]
  | cons n rest ih =>
    intro base
    have hids : nodeIds (n :: rest) = n.id :: nodeIds rest := rfl
    rw [List.foldl_cons, ih, hids, List.filter_cons]
    by_cases h0 : outDegreeR links n.id = 0
    · simp [h0]; ring
    · simp [h0]

theorem rankRound_eq_specRound (nodes : List GNode) (links : List Link) (ranks : String → ℚ)
    (id : String) (h : id ∈ nodeIds nodes) :
    rankRound nodes links ranks id = specRound nodes links ranks id := by
  rw [rankRound_eval nodes links ranks id h, specRound, inboundSum_eq_sum, sinkRankSum_eq_sum]
  have hmap : (inboundMap nodes links id).map (fun src => ranks src /
        ((if outDegreeR links src = 0 then 1 else outDegreeR links src : ℕ) : ℚ)) =
      (inboundMap nodes links id).map (fun src => ranks src / (outDegreeR links src : ℚ)) := by
    apply List.map_congr_left
    intro src hsrc
    have hpos := outDegree_pos_of_inbound nodes links id src hsrc
    rw [if_neg (by omega)]
  rw [hmap]

theorem iterRanks_agrees_spec (nodes : List GNode) (links : List Link)
    (hwf : ∀ l ∈ links, l.source ∈ nodeIds nodes ∧ l.target ∈ nodeIds nodes) :
    ∀ k, ∀ id ∈ nodeIds nodes,
      iterRanks nodes links k id = (specRound nodes links)^[k] (specInit nodes) id := by
  intro k
  induction k with
  | zero =>
    intro id hid
    simpa [iterRanks, specInit] using initRanks_eval nodes id hid
  | succ k ih =>
    intro id hid
    have hstep : iterRanks nodes links (k + 1) id =
        rankRound nodes links (iterRanks nodes links k) id := rfl
    rw [hstep, rankRound_eq_specRound nodes links _ id hid, Function.iterate_succ_apply']
    rw [specRound, specRound]
    have hinb : (inboundMap nodes links id).map
          (fun src => iterRanks nodes links k src / (outDegreeR links src : ℚ)) =
        (inboundMap nodes links id).map
          (fun src =>
            (specRound nodes links)^[k] (specInit nodes) src / (outDegreeR links src : ℚ)) := by
      apply List.map_congr_left
      intro src hsrc
      obtain ⟨l, hl, hlsrc⟩ := inboundMap_source_mem nodes links id src hsrc
      have hmem : src ∈ nodeIds nodes := hlsrc ▸ (hwf l hl).1
      rw [ih src hmem]
    have hsink : ((nodeIds nodes).filter (fun i => outDegreeR links i = 0)).map
          (iterRanks nodes links k) =
        ((nodeIds nodes).filter (fun i => outDegreeR links i = 0)).map
          ((specRound nodes links)^[k] (specInit nodes)) := by
      apply List.map_congr_left
      intro i hi
      exact ih i (List.mem_of_mem_filter hi)
    rw [hinb, hsink]

/-- Claim C4: the ranking initialises every node's score to `1/N`; each of
the 20 rounds first sums the current scores of all out-degree-0 nodes into
a sink mass and computes, for every node, `newScore = (1 − 0.85)/N +
0.85 × (Σ inbound neighbourScore/neighbourOutDegree + sinkMass/N)`,
replacing all scores simultaneously (a round reads only the previous
round's scores); after 20 rounds the code's scores coincide with 20
iterations of the spec's round on the spec's initialisation. -/
theorem c4_rank_rounds :
    ∀ (nodes : List GNode) (links : List Link),
      (∀ l ∈ links, l.source ∈ nodeIds nodes ∧ l.target ∈ nodeIds nodes) →
      ((∀ id ∈ nodeIds nodes, iterRanks nodes links 0 id = 1 / (nodes.length : ℚ))
        ∧ (∀ (ranks : String → ℚ), ∀ id ∈ nodeIds nodes,
            rankRound nodes links ranks id = specRound nodes links ranks id)
        ∧ (∀ id ∈ nodeIds nodes,
            iterRanks nodes links 20 id = (specRound nodes links)^[20] (specInit nodes) id)) := by
  intro nodes links hwf
  refine ⟨fun id hid => initRanks_eval nodes id hid,
    fun ranks id hid => rankRound_eq_specRound nodes links ranks id hid,
    fun id hid => iterRanks_agrees_spec nodes links hwf 20 id hid⟩

theorem c4_witness :
    (∀ l ∈ wLinks3, l.source ∈ nodeIds wNodes3 ∧ l.target ∈ nodeIds wNodes3) ∧
    ((∀ id ∈ nodeIds wNodes3, iterRanks wNodes3 wLinks3 0 id = 1 / (wNodes3.length : ℚ))
      ∧ (∀ (ranks : String → ℚ), ∀ id ∈ nodeIds wNodes3,
          rankRound wNodes3 wLinks3 ranks id = specRound wNodes3 wLinks3 ranks id)
      ∧ (∀ id ∈ nodeIds wNodes3,
          iterRanks wNodes3 wLinks3 20 id =
            (specRound wNodes3 wLinks3)^[20] (specInit wNodes3) id)) :=
  ⟨by decide, c4_rank_rounds wNodes3 wLinks3 (by decide)⟩

/-! ### Normalization lemmas -/

theorem foldl_max_le (xs : List ℚ) :
    ∀ a : ℚ, a ≤ xs.foldl max a ∧ ∀ x ∈ xs, x ≤ xs.foldl max a := by
  induction xs with
  | nil => intro a; exact ⟨le_refl a, by simp⟩
  | cons x rest ih =>
    intro a
    rw [List.foldl_cons]
    obtain ⟨h1, h2⟩ := ih (max a x)
    refine ⟨le_trans (le_max_left a x) h1, ?_⟩
    intro y hy
    rcases List.mem_cons.mp hy with rfl | hy'
    · exact le_trans (le_max_right a y) h1
    · exact h2 y hy'

theorem foldl_max_mem (xs : List ℚ) :
    ∀ a : ℚ, xs.foldl max a = a ∨ xs.foldl max a ∈ xs := by
  induction xs with
  | nil => intro a; exact Or.inl rfl
  | cons x rest ih =>
    intro a
    rw [List.foldl_cons]
    rcases ih (max a x) with h | h
    · rcases max_choice a x with hm | hm
      · exact Or.inl (h.trans hm)
      · exact Or.inr (List.mem_cons.mpr (Or.inl (h.trans hm)))
    · exact Or.inr (List.mem_cons.mpr (Or.inr h))

theorem foldl_min_le (xs : List ℚ) :
    ∀ a : ℚ, xs.foldl min a ≤ a ∧ ∀ x ∈ xs, xs.foldl min a ≤ x := by
  induction xs with
  | nil => intro a; exact ⟨le_refl a, by simp⟩
  | cons x rest ih =>
    intro a
    rw [List.foldl_cons]
    obtain ⟨h1, h2⟩ := ih (min a x)
    refine ⟨le_trans h1 (min_le_left a x), ?_⟩
    intro y hy
    rcases List.mem_cons.mp hy with rfl | hy'
    · exact le_trans h1 (min_le_right a y)
    · exact h2 y hy'

theorem foldl_min_mem (xs : List ℚ) :
    ∀ a : ℚ, xs.foldl min a = a ∨ xs.foldl min a ∈ xs := by
  induction xs with
  | nil => intro a; exact Or.inl rfl
  | cons x rest ih =>
    intro a
    rw [List.foldl_cons]
    rcases ih (min a x) with h | h
    · rcases min_choice a x with hm | hm
      · exact Or.inl (h.trans hm)
      · exact Or.inr (List.mem_cons.mpr (Or.inl (h.trans hm)))
    · exact Or.inr (List.mem_cons.mpr (Or.inr h))

theorem listMax_spec (xs : List ℚ) (h : xs ≠ []) :
    listMax xs ∈ xs ∧ ∀ x ∈ xs, x ≤ listMax xs := by
  match xs, h with
  | x :: rest, _ =>
    rw [listMax]
    constructor
    · rcases foldl_max_mem rest x with h1 | h1
      · rw [h1]; exact List.mem_cons_self x rest
      · exact List.mem_cons.mpr (Or.inr h1)
    · intro y hy
      rcases List.mem_cons.mp hy with rfl | hy'
      · exact (foldl_max_le rest y).1
      · exact (foldl_max_le rest x).2 y hy'

theorem listMin_spec (xs : List ℚ) (h : xs ≠ []) :
    listMin xs ∈ xs ∧ ∀ x ∈ xs, listMin xs ≤ x := by
  match xs, h with
  | x :: rest, _ =>
    rw [listMin]
    constructor
    · rcases foldl_min_mem rest x with h1 | h1
      · rw [h1]; exact List.mem_cons_self x rest
      · exact List.mem_cons.mpr (Or.inr h1)
    · intro y hy
      rcases List.mem_cons.mp hy with rfl | hy'
      · exact (foldl_min_le rest y).1
      · exact (foldl_min_le rest x).2 y hy'

theorem score_mem_finalScores (nodes : List GNode) (links : List Link) (n : GNode)
    (h : n ∈ nodes) : iterRanks nodes links 20 n.id ∈ finalScores nodes links := by
  apply List.mem_map_of_mem
  exact List.mem_dedup.mpr (List.mem_map_of_mem _ h)

theorem finalScores_ne_nil (nodes : List GNode) (links : List Link) (h : nodes ≠ []) :
    finalScores nodes links ≠ [] := by
  match nodes, h with
  | n :: rest, _ =>
    exact List.ne_nil_of_mem
      (score_mem_finalScores (n :: rest) links n (List.mem_cons_self n rest))

theorem exists_node_of_score_mem (nodes : List GNode) (links : List Link) (v : ℚ)
    (h : v ∈ finalScores nodes links) :
    ∃ n ∈ nodes, iterRanks nodes links 20 n.id = v := by
  obtain ⟨id, hid, hv⟩ := List.mem_map.mp h
  obtain ⟨n, hn, rfl⟩ := List.mem_map.mp (List.mem_dedup.mp hid)
  exact ⟨n, hn, hv⟩

theorem calculateNodeRanks_eq (nodes : List GNode) (links : List Link) (h : nodes ≠ []) :
    calculateNodeRanks nodes links =
      nodes.map (fun n =>
        { n with rank := some ((jsRound
            ((iterRanks nodes links 20 n.id - listMin (finalScores nodes links)) /
              (if listMax (finalScores nodes links) - listMin (finalScores nodes links) = 0 then 1
                else listMax (finalScores nodes links) - listMin (finalScores nodes links)) *
              100) : ℤ) : ℚ) }) := by
  rw [calculateNodeRanks, if_neg (by simpa using h)]

theorem jsRound_zero : jsRound 0 = 0 := by
  have h1 : (0 : ℤ) ≤ jsRound 0 := Int.le_floor.mpr (by norm_num)
  have h2 : jsRound 0 < 1 := Int.floor_lt.mpr (by norm_num)
  omega

theorem jsRound_hundred : jsRound 100 = 100 := by
  have h1 : (100 : ℤ) ≤ jsRound 100 := Int.le_floor.mpr (by norm_num)
  have h2 : jsRound 100 < 101 := Int.floor_lt.mpr (by norm_num)
  omega

theorem jsRound_bounds (q : ℚ) (h0 : 0 ≤ q) (h100 : q ≤ 100) :
    0 ≤ jsRound q ∧ jsRound q ≤ 100 := by
  constructor
  · exact Int.le_floor.mpr (by push_cast; linarith)
  · have h : jsRound q < 101 := Int.floor_lt.mpr (by push_cast; linarith)
    omega

/-- Claim C5: for a non-empty graph whose final iterated scores are not
all equal, the returned ranks attain exactly 0 at the minimum and exactly
100 at the maximum (every rank lies in [0, 100]); if all final scores are
equal, the `range || 1` guard avoids the division by zero and every node
gets the constant rank 0; a zero-node graph is a no-op. -/
theorem c5_rank_normalization :
    ∀ (nodes : List GNode) (links : List Link),
      (nodes = [] → calculateNodeRanks nodes links = nodes)
      ∧ (nodes ≠ [] →
          ¬ (∀ a ∈ finalScores nodes links, ∀ b ∈ finalScores nodes links, a = b) →
          ((0 : ℚ) ∈ (calculateNodeRanks nodes links).filterMap (·.rank) ∧
            (100 : ℚ) ∈ (calculateNodeRanks nodes links).filterMap (·.rank) ∧
            ∀ r ∈ (calculateNodeRanks nodes links).filterMap (·.rank), 0 ≤ r ∧ r ≤ 100))
      ∧ (nodes ≠ [] →
          (∀ a ∈ finalScores nodes links, ∀ b ∈ finalScores nodes links, a = b) →
          ∀ n ∈ calculateNodeRanks nodes links, n.rank = some 0) := by
  intro nodes links
  refine ⟨?_, ?_, ?_⟩
  · rintro rfl
    simp [calculateNodeRanks]
  · intro hne hneq
    obtain ⟨hmmem, hmle⟩ := listMin_spec _ (finalScores_ne_nil nodes links hne)
    obtain ⟨hMmem, hMle⟩ := listMax_spec _ (finalScores_ne_nil nodes links hne)
    have hne' : listMin (finalScores nodes links) ≠ listMax (finalScores nodes links) := by
      intro heq
      apply hneq
      intro a ha b hb
      have h1 := hMle a ha
      have h2 := hmle a ha
      have h3 := hMle b hb
      have h4 := hmle b hb
      linarith
    have hlt : listMin (finalScores nodes links) < listMax (finalScores nodes links) :=
      lt_of_le_of_ne (hmle _ hMmem) hne'
    have hpos : 0 < listMax (finalScores nodes links) - listMin (finalScores nodes links) := by
      linarith
    have hRne : listMax (finalScores nodes links) - listMin (finalScores nodes links) ≠ 0 :=
      ne_of_gt hpos
    rw [calculateNodeRanks_eq nodes links hne]
    refine ⟨?_, ?_, ?_⟩
    · obtain ⟨n0, hn0, hs0⟩ := exists_node_of_score_mem nodes links _ hmmem
      apply List.mem_filterMap.mpr
      refine ⟨_, List.mem_map_of_mem _ hn0, ?_⟩
      rw [if_neg hRne]
      simp only [hs0]
      rw [sub_self, zero_div, zero_mul, jsRound_zero]
      norm_num
    · obtain ⟨n1, hn1, hs1⟩ := exists_node_of_score_mem nodes links _ hMmem
      apply List.mem_filterMap.mpr
      refine ⟨_, List.mem_map_of_mem _ hn1, ?_⟩
      rw [if_neg hRne]
      simp only [hs1]
      rw [div_self hRne, one_mul, jsRound_hundred]
      norm_num
    · intro r hr
      obtain ⟨e, he, hrank⟩ := List.mem_filterMap.mp hr
      obtain ⟨n, hn, rfl⟩ := List.mem_map.mp he
      rw [if_neg hRne] at hrank
      simp only at hrank
      have hsS := score_mem_finalScores nodes links n hn
      have hlow : 0 ≤ (iterRanks nodes links 20 n.id - listMin (finalScores nodes links)) /
          (listMax (finalScores nodes links) - listMin (finalScores nodes links)) * 100 :=
        mul_nonneg (div_nonneg (sub_nonneg.mpr (hmle _ hsS)) hpos.le) (by norm_num)
      have hhigh : (iterRanks nodes links 20 n.id - listMin (finalScores nodes links)) /
          (listMax (finalScores nodes links) - listMin (finalScores nodes links)) * 100 ≤ 100 := by
        have hdiv : (iterRanks nodes links 20 n.id - listMin (finalScores nodes links)) /
            (listMax (finalScores nodes links) - listMin (finalScores nodes links)) ≤ 1 :=
          (div_le_one hpos).mpr (by have := hMle _ hsS; linarith)
        nlinarith
      obtain ⟨hb0, hb1⟩ := jsRound_bounds _ hlow hhigh
      cases hrank
      constructor
      · exact_mod_cast hb0
      · exact_mod_cast hb1
  · intro hne hall
    obtain ⟨hmmem, hmle⟩ := listMin_spec _ (finalScores_ne_nil nodes links hne)
    obtain ⟨hMmem, hMle⟩ := listMax_spec _ (finalScores_ne_nil nodes links hne)
    have hR0 : listMax (finalScores nodes links) - listMin (finalScores nodes links) = 0 := by
      have := hall _ hMmem _ hmmem
      linarith
    rw [calculateNodeRanks_eq nodes links hne]
    intro e he
    obtain ⟨n, hn, rfl⟩ := List.mem_map.mp he
    have hs : iterRanks nodes links 20 n.id = listMin (finalScores nodes links) :=
      hall _ (score_mem_finalScores nodes links n hn) _ hmmem
    simp only [if_pos hR0, hs]
    rw [sub_self, zero_div, zero_mul, jsRound_zero]
    norm_num

set_option maxRecDepth 8000 in
theorem c5_witness :
    ((wNodes3 ≠ []) ∧
      ¬ (∀ a ∈ finalScores wNodes3 wLinks3, ∀ b ∈ finalScores wNodes3 wLinks3, a = b) ∧
      ((0 : ℚ) ∈ (calculateNodeRanks wNodes3 wLinks3).filterMap (·.rank) ∧
        (100 : ℚ) ∈ (calculateNodeRanks wNodes3 wLinks3).filterMap (·.rank) ∧
        ∀ r ∈ (calculateNodeRanks wNodes3 wLinks3).filterMap (·.rank), 0 ≤ r ∧ r ≤ 100)) ∧
    ((wSingle ≠ []) ∧
      (∀ a ∈ finalScores wSingle [], ∀ b ∈ finalScores wSingle [], a = b) ∧
      ∀ n ∈ calculateNodeRanks wSingle [], n.rank = some 0) := by
  have hmemA : iterRanks wNodes3 wLinks3 20 "a" ∈ finalScores wNodes3 wLinks3 :=
    score_mem_finalScores wNodes3 wLinks3 { id := "a" } (by decide)
  have hmemB : iterRanks wNodes3 wLinks3 20 "b" ∈ finalScores wNodes3 wLinks3 :=
    score_mem_finalScores wNodes3 wLinks3 { id := "b" } (by decide)
  have hAB : iterRanks wNodes3 wLinks3 20 "a" ≠ iterRanks wNodes3 wLinks3 20 "b" := by
    with_unfolding_all decide
  have h1 : ¬ (∀ a ∈ finalScores wNodes3 wLinks3, ∀ b ∈ finalScores wNodes3 wLinks3, a = b) :=
    fun hall => hAB (hall _ hmemA _ hmemB)
  have hfs : finalScores wSingle [] = [iterRanks wSingle [] 20 "s"] := rfl
  have h2 : ∀ a ∈ finalScores wSingle [], ∀ b ∈ finalScores wSingle [], a = b := by
    intro a ha b hb
    rw [hfs, List.mem_singleton] at ha hb
    rw [ha, hb]
  exact ⟨⟨by simp [wNodes3], h1,
      (c5_rank_normalization wNodes3 wLinks3).2.1 (by simp [wNodes3]) h1⟩,
    ⟨by simp [wSingle], h2,
      (c5_rank_normalization wSingle []).2.2 (by simp [wSingle]) h2⟩⟩

/-! ### Path lemmas for BFS correctness -/

theorem isPath_iff (adjF : String → List (String × String)) (s e : String) (p : List String) :
    IsPath adjF s e p ↔
      p.head? = some s ∧ p.getLast? = some e ∧ chainB adjF p = true := by
  simp [IsPath, isPathB, Bool.and_eq_true, and_assoc]

theorem isPath_length_pos (adjF : String → List (String × String)) (s e : String)
    (p : List String) (h : IsPath adjF s e p) : 1 ≤ p.length := by
  obtain ⟨h1, -, -⟩ := (isPath_iff adjF s e p).mp h
  cases p
  · simp at h1
  · simp

theorem isPath_single (adjF : String → List (String × String)) (s : String) :
    IsPath adjF s s [s] := by
  simp [IsPath, isPathB, chainB]

theorem isPath_cons_cons (adjF : String → List (String × String)) (s e x y : String)
    (rest : List String) :
    IsPath adjF s e (x :: y :: rest) ↔
      x = s ∧ isStepB adjF x y = true ∧ IsPath adjF y e (y :: rest) := by
  rw [isPath_iff, isPath_iff]
  have hc : chainB adjF (x :: y :: rest) = (isStepB adjF x y && chainB adjF (y :: rest)) := rfl
  rw [hc, List.getLast?_cons_cons]
  simp [Bool.and_eq_true]
  tauto

theorem isPath_single_inv (adjF : String → List (String × String)) (s e x : String)
    (h : IsPath adjF s e [x]) : x = s ∧ s = e := by
  obtain ⟨h1, h2, -⟩ := (isPath_iff adjF s e [x]).mp h
  simp at h1 h2
  exact ⟨h1, h1 ▸ h2⟩

theorem chainB_snoc (adjF : String → List (String × String)) :
    ∀ (p : List String) (c b : String), chainB adjF p = true → p.getLast? = some c →
      isStepB adjF c b = true → chainB adjF (p ++ [b]) = true := by
  intro p
  induction p with
  | nil => intro c b _ h2; simp at h2
  | cons x rest ih =>
    intro c b h1 h2 h3
    cases rest with
    | nil =>
      simp at h2
      subst h2
      show (isStepB adjF x b && chainB adjF [b]) = true
      simp [h3, chainB]
    | cons y rest' =>
      rw [List.getLast?_cons_cons] at h2
      have h1' : (isStepB adjF x y && chainB adjF (y :: rest')) = true := h1
      rw [Bool.and_eq_true] at h1'
      have := ih c b h1'.2 h2 h3
      show (isStepB adjF x y && chainB adjF ((y :: rest') ++ [b])) = true
      rw [Bool.and_eq_true]
      exact ⟨h1'.1, this⟩

theorem isPath_snoc (adjF : String → List (String × String)) (s c b : String)
    (p : List String) (hp : IsPath adjF s c p) (hstep : isStepB adjF c b = true) :
    IsPath adjF s b (p ++ [b]) := by
  obtain ⟨h1, h2, h3⟩ := (isPath_iff adjF s c p).mp hp
  refine (isPath_iff adjF s b (p ++ [b])).mpr ⟨?_, ?_, chainB_snoc adjF p c b h3 h2 hstep⟩
  · cases p
    · simp at h1
    · simpa using h1
  · exact List.getLast?_concat p

theorem isPath_cons_of_step (adjF : String → List (String × String)) (s y w : String)
    (p1 : List String) (hstep : isStepB adjF s y = true) (hp : IsPath adjF y w p1) :
    IsPath adjF s w (s :: p1) := by
  obtain ⟨h1, -, -⟩ := (isPath_iff adjF y w p1).mp hp
  cases p1 with
  | nil => simp at h1
  | cons z rest =>
    have hz : z = y := by simpa using h1
    subst hz
    exact (isPath_cons_cons adjF s w s z rest).mpr ⟨rfl, hstep, hp⟩

theorem isStepB_exists (adjF : String → List (String × String)) (a b : String)
    (h : isStepB adjF a b = true) : ∃ pr ∈ adjF a, pr.1 = b := by
  simp only [isStepB] at h
  have hmem : b ∈ (adjF a).map Prod.fst := by simpa using h
  obtain ⟨pr, hpr, hpr1⟩ := List.mem_map.mp hmem
  exact ⟨pr, hpr, hpr1⟩

theorem isStepB_of_mem (adjF : String → List (String × String)) (a : String)
    (pr : String × String) (h : pr ∈ adjF a) : isStepB adjF a pr.1 = true := by
  simp only [isStepB]
  simpa using List.mem_map_of_mem Prod.fst h

theorem isPath_crossing (adjF : String → List (String × String)) (v : List String) :
    ∀ (p : List String) (s u : String), IsPath adjF s u p → s ∈ v → u ∉ v →
      ∃ w w' p1, IsPath adjF s w p1 ∧ w ∈ v ∧ w' ∉ v ∧ isStepB adjF w w' = true ∧
        p1.length < p.length := by
  intro p
  induction p with
  | nil =>
    intro s u hp
    obtain ⟨h1, -, -⟩ := (isPath_iff adjF s u []).mp hp
    simp at h1
  | cons x rest ih =>
    intro s u hp hs hu
    cases rest with
    | nil =>
      obtain ⟨hx, hsu⟩ := isPath_single_inv adjF s u x hp
      exact absurd (hsu ▸ hs) hu
    | cons y rest' =>
      obtain ⟨hx, hstep, htail⟩ := (isPath_cons_cons adjF s u x y rest').mp hp
      subst hx
      by_cases hy : y ∈ v
      · obtain ⟨w, w', p1, hp1, hw, hw', hst, hlen⟩ := ih y u htail hy hu
        refine ⟨w, w', x :: p1, isPath_cons_of_step adjF x y w p1 hstep hp1, hw, hw', hst, ?_⟩
        simpa using Nat.succ_lt_succ hlen
      · refine ⟨x, y, [x], isPath_single adjF x, hs, hy, hstep, ?_⟩
        simp

theorem closed_reach (adjF : String → List (String × String)) (v : List String)
    (hcl : ∀ u ∈ v, ∀ pr ∈ adjF u, pr.1 ∈ v) :
    ∀ (p : List String) (s e : String), s ∈ v → IsPath adjF s e p → e ∈ v := by
  intro p
  induction p with
  | nil =>
    intro s e _ hp
    obtain ⟨h1, -, -⟩ := (isPath_iff adjF s e []).mp hp
    simp at h1
  | cons x rest ih =>
    intro s e hs hp
    cases rest with
    | nil =>
      obtain ⟨-, hse⟩ := isPath_single_inv adjF s e x hp
      exact hse ▸ hs
    | cons y rest' =>
      obtain ⟨hx, hstep, htail⟩ := (isPath_cons_cons adjF s e x y rest').mp hp
      subst hx
      obtain ⟨pr, hpr, hpr1⟩ := isStepB_exists adjF x y hstep
      exact ih y e (hpr1 ▸ hcl x hs pr hpr) htail

/-! ### Adjacency universe lemmas -/

theorem nbrs_step_mem (acc : List (String × String)) (l : Link) (v : String)
    (pr : String × String)
    (h : pr ∈ (if v = l.target then
        (if v = l.source then acc ++ [(l.target, linkKey l.source l.target)] else acc) ++
          [(l.source, linkKey l.source l.target)]
      else (if v = l.source then acc ++ [(l.target, linkKey l.source l.target)] else acc))) :
    pr ∈ acc ∨ pr = (l.target, linkKey l.source l.target) ∨
      pr = (l.source, linkKey l.source l.target) := by
  by_cases h2 : v = l.target
  · rw [if_pos h2] at h
    by_cases h1 : v = l.source
    · rw [if_pos h1] at h
      rcases List.mem_append.mp h with hh | hh
      · rcases List.mem_append.mp hh with hh2 | hh2
        · exact Or.inl hh2
        · exact Or.inr (Or.inl (List.mem_singleton.mp hh2))
      · exact Or.inr (Or.inr (List.mem_singleton.mp hh))
    · rw [if_neg h1] at h
      rcases List.mem_append.mp h with hh | hh
      · exact Or.inl hh
      · exact Or.inr (Or.inr (List.mem_singleton.mp hh))
  · rw [if_neg h2] at h
    by_cases h1 : v = l.source
    · rw [if_pos h1] at h
      rcases List.mem_append.mp h with hh | hh
      · exact Or.inl hh
      · exact Or.inr (Or.inl (List.mem_singleton.mp hh))
    · rw [if_neg h1] at h
      exact Or.inl h

theorem mem_nbrs_endpoints (links : List Link) (v : String) :
    ∀ pr ∈ nbrs links v, ∃ l ∈ links, pr.1 = l.target ∨ pr.1 = l.source := by
  suffices h : ∀ (acc : List (String × String)) pr,
      pr ∈ links.foldl
        (fun acc l =>
          let acc := if v = l.source then acc ++ [(l.target, linkKey l.source l.target)] else acc
          if v = l.target then acc ++ [(l.source, linkKey l.source l.target)] else acc) acc →
      pr ∈ acc ∨ ∃ l ∈ links, pr.1 = l.target ∨ pr.1 = l.source by
    intro pr hpr
    rcases h [] pr hpr with hacc | hex
    · simp at hacc
    · exact hex
  induction links with
  | nil => intro acc pr hpr; exact Or.inl hpr
  | cons l ls ih =>
    intro acc pr hpr
    rw [List.foldl_cons] at hpr
    rcases ih _ pr hpr with hacc | ⟨l', hl', hor⟩
    · rcases nbrs_step_mem acc l v pr hacc with h | h | h
      · exact Or.inl h
      · exact Or.inr ⟨l, List.mem_cons_self l ls, Or.inl (by rw [h])⟩
      · exact Or.inr ⟨l, List.mem_cons_self l ls, Or.inr (by rw [h])⟩
    · exact Or.inr ⟨l', List.mem_cons_of_mem l hl', hor⟩

theorem mem_linkVerts (links : List Link) (l : Link) (h : l ∈ links) :
    l.source ∈ linkVerts links ∧ l.target ∈ linkVerts links := by
  induction links with
  | nil => simp at h
  | cons l' ls ih =>
    have hstep : linkVerts (l' :: ls) = l'.source :: l'.target :: linkVerts ls := rfl
    rw [hstep]
    rcases List.mem_cons.mp h with rfl | h'
    · simp
    · obtain ⟨h1, h2⟩ := ih h'
      simp [h1, h2]

theorem linkVerts_length (links : List Link) : (linkVerts links).length = 2 * links.length := by
  induction links with
  | nil => rfl
  | cons l ls ih =>
    have hstep : linkVerts (l :: ls) = l.source :: l.target :: linkVerts ls := rfl
    rw [hstep]
    simp [ih]
    omega

theorem start_mem_verts (startId : String) (links : List Link) :
    startId ∈ verts startId links := by
  rw [verts, List.mem_dedup]
  exact List.mem_cons_self _ _

theorem nbrs_closure (links : List Link) (startId : String) :
    ∀ (v : String) (pr : String × String), pr ∈ nbrs links v → pr.1 ∈ verts startId links := by
  intro v pr hpr
  obtain ⟨l, hl, hor⟩ := mem_nbrs_endpoints links v pr hpr
  obtain ⟨h1, h2⟩ := mem_linkVerts links l hl
  rw [verts, List.mem_dedup]
  rcases hor with h | h
  · exact List.mem_cons_of_mem _ (h ▸ h2)
  · exact List.mem_cons_of_mem _ (h ▸ h1)

theorem verts_length_le (startId : String) (links : List Link) :
    (verts startId links).length ≤ 2 * links.length + 1 := by
  have h1 : (verts startId links).length ≤ (startId :: linkVerts links).length :=
    (List.dedup_sublist _).length_le
  have h2 : (startId :: linkVerts links).length = (linkVerts links).length + 1 := by simp
  have h3 := linkVerts_length links
  omega

theorem nodup_length_le (l l' : List String) (h : l.Nodup) (hsub : ∀ x ∈ l, x ∈ l') :
    l.length ≤ l'.length := by
  have h1 : l.toFinset.card = l.length := List.toFinset_card_of_nodup h
  have h2 : l.toFinset ⊆ l'.toFinset := by
    intro x hx
    rw [List.mem_toFinset] at hx ⊢
    exact hsub x hx
  calc l.length = l.toFinset.card := h1.symm
    _ ≤ l'.toFinset.card := Finset.card_le_card h2
    _ ≤ l'.length := List.toFinset_card_le l'

/-! ### BFS loop invariant preservation -/

theorem expandFrame_nil (f : Frame) (queue : List Frame) (visited : List String) :
    expandFrame [] f queue visited = (queue, visited) := rfl

theorem expandFrame_cons (n : String × String) (ns : List (String × String)) (f : Frame)
    (queue : List Frame) (visited : List String) :
    expandFrame (n :: ns) f queue visited =
      if n.1 ∈ visited then expandFrame ns f queue visited
      else expandFrame ns f
        (queue ++ [⟨n.1, f.pathNodes ++ [n.1], f.pathLinks ++ [n.2]⟩]) (visited ++ [n.1]) := by
  simp only [expandFrame, List.foldl_cons]
  by_cases h : n.1 ∈ visited
  · have hc : visited.contains n.1 = true := by simpa using h
    rw [if_pos h]
    congr 1
    simp [hc, h]
  · have hc : visited.contains n.1 = false := by simpa using h
    rw [if_neg h]
    congr 1
    simp [hc, h]

theorem expandFrame_visited_mono (f : Frame) :
    ∀ (ns : List (String × String)) (queue : List Frame) (visited : List String) (x : String),
      x ∈ visited → x ∈ (expandFrame ns f queue visited).2 := by
  intro ns
  induction ns with
  | nil =>
    intro queue visited x hx
    rw [expandFrame_nil]
    exact hx
  | cons n ns' ih =>
    intro queue visited x hx
    rw [expandFrame_cons]
    by_cases h : n.1 ∈ visited
    · rw [if_pos h]; exact ih _ _ x hx
    · rw [if_neg h]; exact ih _ _ x (List.mem_append.mpr (Or.inl hx))

theorem expandFold_spec (adjF : String → List (String × String)) (s endId : String)
    (U : List String) (hadj : ∀ v pr, pr ∈ adjF v → pr.1 ∈ U) (f : Frame)
    (hfpath : IsPath adjF s f.current f.pathNodes)
    (hfopt : ∀ q, IsPath adjF s f.current q → f.pathNodes.length ≤ q.length) :
    ∀ (ns : List (String × String)), (∀ pr ∈ ns, pr ∈ adjF f.current) →
    ∀ (queue : List Frame) (visited : List String),
      MidInv adjF s endId U f.current f.pathNodes.length queue visited →
      MidInv adjF s endId U f.current f.pathNodes.length
          (expandFrame ns f queue visited).1 (expandFrame ns f queue visited).2
        ∧ (∀ pr ∈ ns, pr.1 ∈ (expandFrame ns f queue visited).2)
        ∧ (expandFrame ns f queue visited).2.length + queue.length
            = visited.length + (expandFrame ns f queue visited).1.length := by
  intro ns
  induction ns with
  | nil =>
    intro _ queue visited inv
    rw [expandFrame_nil]
    exact ⟨inv, by simp, by rfl⟩
  | cons n ns' ih =>
    intro hsub queue visited inv
    have hnadj : n ∈ adjF f.current := hsub n (List.mem_cons_self n ns')
    have hsub' : ∀ pr ∈ ns', pr ∈ adjF f.current :=
      fun pr hpr => hsub pr (List.mem_cons_of_mem n hpr)
    rw [expandFrame_cons]
    by_cases hnv : n.1 ∈ visited
    · rw [if_pos hnv]
      obtain ⟨invF, hproc, hlen⟩ := ih hsub' queue visited inv
      refine ⟨invF, ?_, hlen⟩
      intro pr hpr
      rcases List.mem_cons.mp hpr with rfl | hpr'
      · exact expandFrame_visited_mono f ns' queue visited pr.1 hnv
      · exact hproc pr hpr'
    · rw [if_neg hnv]
      have hstep : isStepB adjF f.current n.1 = true := isStepB_of_mem adjF f.current n hnadj
      have hpath' : IsPath adjF s n.1 (f.pathNodes ++ [n.1]) :=
        isPath_snoc adjF s f.current n.1 f.pathNodes hfpath hstep
      have hopt' : ∀ q, IsPath adjF s n.1 q → f.pathNodes.length + 1 ≤ q.length := by
        intro q hq
        obtain ⟨w, w', p1, hp1, hw, hw', hst, hlen1⟩ :=
          isPath_crossing adjF visited q s n.1 hq inv.smem hnv
        rcases inv.pending w hw with ⟨g, hg, hgw⟩ | hwfc | hclosed
        · have h1 : g.pathNodes.length ≤ p1.length :=
            inv.optimal g hg p1 (by rw [hgw]; exact hp1)
          have h2 := (inv.bounds g hg).1
          omega
        · rw [hwfc] at hp1
          have h1 : f.pathNodes.length ≤ p1.length := hfopt p1 hp1
          omega
        · obtain ⟨pr, hpr, hpr1⟩ := isStepB_exists adjF w w' hst
          exact absurd (hpr1 ▸ hclosed pr hpr) hw'
      have hinv' : MidInv adjF s endId U f.current f.pathNodes.length
          (queue ++ [⟨n.1, f.pathNodes ++ [n.1], f.pathLinks ++ [n.2]⟩])
          (visited ++ [n.1]) := by
        refine ⟨?_, ?_, ?_, ?_, ?_, ?_, ?_, ?_, ?_⟩
        · rw [List.nodup_append]
          exact ⟨inv.vnodup, List.nodup_singleton _,
            fun a ha hb => hnv ((List.mem_singleton.mp hb) ▸ ha)⟩
        · intro x hx
          rcases List.mem_append.mp hx with hx' | hx'
          · exact inv.vsub x hx'
          · rw [List.mem_singleton.mp hx']
            exact hadj f.current n hnadj
        · exact List.mem_append.mpr (Or.inl inv.smem)
        · intro g hg
          rcases List.mem_append.mp hg with hg' | hg'
          · exact ⟨(inv.frames g hg').1,
              List.mem_append.mpr (Or.inl (inv.frames g hg').2)⟩
          · rw [List.mem_singleton.mp hg']
            exact ⟨hpath', List.mem_append.mpr (Or.inr (by simp))⟩
        · intro g hg
          rcases List.mem_append.mp hg with hg' | hg'
          · exact inv.optimal g hg'
          · rw [List.mem_singleton.mp hg']
            intro q hq
            have := hopt' q hq
            simpa using this
        · intro g hg
          rcases List.mem_append.mp hg with hg' | hg'
          · exact inv.bounds g hg'
          · rw [List.mem_singleton.mp hg']
            simp
        · rw [List.pairwise_append]
          refine ⟨inv.sorted, List.pairwise_singleton _ _, ?_⟩
          intro g hg g' hg'
          rw [List.mem_singleton.mp hg']
          have := (inv.bounds g hg).2
          simpa using this
        · intro u hu
          rcases List.mem_append.mp hu with hu' | hu'
          · rcases inv.pending u hu' with ⟨g, hg, hgc⟩ | hfc | hcl
            · exact Or.inl ⟨g, List.mem_append.mpr (Or.inl hg), hgc⟩
            · exact Or.inr (Or.inl hfc)
            · exact Or.inr (Or.inr
                (fun pr hpr => List.mem_append.mpr (Or.inl (hcl pr hpr))))
          · rw [List.mem_singleton.mp hu']
            exact Or.inl ⟨⟨n.1, f.pathNodes ++ [n.1], f.pathLinks ++ [n.2]⟩,
              List.mem_append.mpr (Or.inr (List.mem_singleton_self _)), rfl⟩
        · intro he
          rcases List.mem_append.mp he with he' | he'
          · obtain ⟨g, hg, hgc⟩ := inv.endTracked he'
            exact ⟨g, List.mem_append.mpr (Or.inl hg), hgc⟩
          · exact ⟨⟨n.1, f.pathNodes ++ [n.1], f.pathLinks ++ [n.2]⟩,
              List.mem_append.mpr (Or.inr (List.mem_singleton_self _)),
              (List.mem_singleton.mp he').symm⟩
      obtain ⟨invF, hproc, hlenF⟩ := ih hsub' _ _ hinv'
      refine ⟨invF, ?_, ?_⟩
      · intro pr hpr
        rcases List.mem_cons.mp hpr with rfl | hpr'
        · exact expandFrame_visited_mono f ns' _ _ pr.1
            (List.mem_append.mpr (Or.inr (by simp)))
        · exact hproc pr hpr'
      · simp only [List.length_append, List.length_singleton] at hlenF
        omega

theorem bfs_step (adjF : String → List (String × String)) (s endId : String)
    (U : List String) (hadj : ∀ v pr, pr ∈ adjF v → pr.1 ∈ U) (f : Frame)
    (qs : List Frame) (visited : List String)
    (inv : BfsInv adjF s endId U (f :: qs) visited) (hne : f.current ≠ endId) :
    BfsInv adjF s endId U (expandFrame (adjF f.current) f qs visited).1
        (expandFrame (adjF f.current) f qs visited).2
      ∧ (expandFrame (adjF f.current) f qs visited).2.length + qs.length
          = visited.length + (expandFrame (adjF f.current) f qs visited).1.length
      ∧ (∀ x ∈ visited, x ∈ (expandFrame (adjF f.current) f qs visited).2) := by
  have hf := inv.frames f (List.mem_cons_self f qs)
  have hfopt := inv.optimal f (List.mem_cons_self f qs)
  have hsorted := List.pairwise_cons.mp inv.sorted
  have mid : MidInv adjF s endId U f.current f.pathNodes.length qs visited := by
    refine ⟨inv.vnodup, inv.vsub, inv.smem, ?_, ?_, ?_, hsorted.2, ?_, ?_⟩
    · exact fun g hg => inv.frames g (List.mem_cons_of_mem f hg)
    · exact fun g hg => inv.optimal g (List.mem_cons_of_mem f hg)
    · intro g hg
      exact ⟨hsorted.1 g hg,
        inv.level g (List.mem_cons_of_mem f hg) f (List.mem_cons_self f qs)⟩
    · intro u hu
      rcases inv.pending u hu with ⟨g, hg, hgc⟩ | hcl
      · rcases List.mem_cons.mp hg with rfl | hg'
        · exact Or.inr (Or.inl hgc.symm)
        · exact Or.inl ⟨g, hg', hgc⟩
      · exact Or.inr (Or.inr hcl)
    · intro he
      obtain ⟨g, hg, hgc⟩ := inv.endTracked he
      rcases List.mem_cons.mp hg with rfl | hg'
      · exact absurd hgc hne
      · exact ⟨g, hg', hgc⟩
  obtain ⟨invF, hproc, hlen⟩ :=
    expandFold_spec adjF s endId U hadj f hf.1 hfopt (adjF f.current)
      (fun pr hpr => hpr) qs visited mid
  refine ⟨?_, hlen, fun x hx => expandFrame_visited_mono f (adjF f.current) qs visited x hx⟩
  refine ⟨invF.vnodup, invF.vsub, invF.smem, invF.frames, invF.optimal, invF.sorted, ?_, ?_,
    invF.endTracked⟩
  · intro g hg g' hg'
    have b1 := invF.bounds g hg
    have b2 := invF.bounds g' hg'
    omega
  · intro u hu
    rcases invF.pending u hu with hfr | hfc | hcl
    · exact Or.inl hfr
    · rw [hfc]
      exact Or.inr hproc
    · exact Or.inr hcl

theorem bfsInv_init (adjF : String → List (String × String)) (s endId : String)
    (U : List String) (hsU : s ∈ U) :
    BfsInv adjF s endId U [⟨s, [s], []⟩] [s] := by
  refine ⟨List.nodup_singleton s, ?_, List.mem_singleton_self s, ?_, ?_, ?_, ?_, ?_, ?_⟩
  · intro v hv
    rw [List.mem_singleton.mp hv]
    exact hsU
  · intro f hf
    rw [List.mem_singleton.mp hf]
    exact ⟨isPath_single adjF s, List.mem_singleton_self s⟩
  · intro f hf
    rw [List.mem_singleton.mp hf]
    intro q hq
    simpa using isPath_length_pos adjF s s q hq
  · exact List.pairwise_singleton _ _
  · intro f hf g hg
    rw [List.mem_singleton.mp hf, List.mem_singleton.mp hg]
    simp
  · intro u hu
    exact Or.inl ⟨_, List.mem_singleton_self _, (List.mem_singleton.mp hu).symm⟩
  · intro he
    exact ⟨_, List.mem_singleton_self _, (List.mem_singleton.mp he).symm⟩

theorem bfsAux_sound (adjF : String → List (String × String)) (s endId : String)
    (U : List String) (hadj : ∀ v pr, pr ∈ adjF v → pr.1 ∈ U) :
    ∀ (fuel : Nat) (queue : List Frame) (visited : List String),
      BfsInv adjF s endId U queue visited →
      ∀ ns ls, bfsAux adjF endId fuel queue visited = some (ns, ls) →
      IsPath adjF s endId ns ∧ ∀ q, IsPath adjF s endId q → ns.length ≤ q.length := by
  intro fuel
  induction fuel with
  | zero =>
    intro queue visited _ ns ls h
    simp [bfsAux] at h
  | succ k ih =>
    intro queue visited inv ns ls h
    cases queue with
    | nil => simp [bfsAux] at h
    | cons f qs =>
      simp only [bfsAux] at h
      by_cases hcur : f.current = endId
      · rw [if_pos hcur] at h
        simp only [Option.some.injEq, Prod.mk.injEq] at h
        obtain ⟨rfl, rfl⟩ := h
        subst hcur
        exact ⟨(inv.frames f (List.mem_cons_self f qs)).1,
          inv.optimal f (List.mem_cons_self f qs)⟩
      · rw [if_neg hcur] at h
        obtain ⟨inv', -, -⟩ := bfs_step adjF s endId U hadj f qs visited inv hcur
        exact ih _ _ inv' ns ls h

theorem bfsAux_none (adjF : String → List (String × String)) (s endId : String)
    (U : List String) (hadj : ∀ v pr, pr ∈ adjF v → pr.1 ∈ U) :
    ∀ (fuel : Nat) (queue : List Frame) (visited : List String),
      BfsInv adjF s endId U queue visited →
      bfsMeasure U queue visited < fuel →
      bfsAux adjF endId fuel queue visited = none →
      ∀ p, ¬ IsPath adjF s endId p := by
  intro fuel
  induction fuel with
  | zero =>
    intro queue visited _ hm
    exact absurd hm (Nat.not_lt_zero _)
  | succ k ih =>
    intro queue visited inv hm hnone p hp
    cases queue with
    | nil =>
      have hend_not : endId ∉ visited := by
        intro he
        obtain ⟨g, hg, -⟩ := inv.endTracked he
        simp at hg
      have hcl : ∀ u ∈ visited, ∀ pr ∈ adjF u, pr.1 ∈ visited := by
        intro u hu
        rcases inv.pending u hu with ⟨g, hg, -⟩ | h
        · simp at hg
        · exact h
      exact hend_not (closed_reach adjF visited hcl p s endId inv.smem hp)
    | cons f qs =>
      simp only [bfsAux] at hnone
      by_cases hcur : f.current = endId
      · rw [if_pos hcur] at hnone
        simp at hnone
      · rw [if_neg hcur] at hnone
        obtain ⟨inv', hlen, hmono⟩ := bfs_step adjF s endId U hadj f qs visited inv hcur
        have hA : (expandFrame (adjF f.current) f qs visited).2.length ≤ U.length :=
          nodup_length_le _ U inv'.vnodup inv'.vsub
        have hB : visited.length ≤ (expandFrame (adjF f.current) f qs visited).2.length :=
          nodup_length_le visited _ inv.vnodup hmono
        have hm' : bfsMeasure U (expandFrame (adjF f.current) f qs visited).1
            (expandFrame (adjF f.current) f qs visited).2 < k := by
          simp only [bfsMeasure, List.length_cons] at hm ⊢
          omega
        exact ih _ _ inv' hm' hnone p hp

theorem findShortestPath_sound (links : List Link) (s e : String) (ns ls : List String)
    (h : findShortestPath s e links = some (ns, ls)) :
    IsPath (nbrs links) s e ns ∧ ∀ q, IsPath (nbrs links) s e q → ns.length ≤ q.length :=
  bfsAux_sound (nbrs links) s e (verts s links)
    (fun v pr hpr => nbrs_closure links s v pr hpr) (bfsFuel links) _ _
    (bfsInv_init (nbrs links) s e (verts s links) (start_mem_verts s links)) ns ls h

theorem findShortestPath_complete (links : List Link) (s e : String)
    (h : ∃ p, IsPath (nbrs links) s e p) :
    ∃ r, findShortestPath s e links = some r := by
  obtain ⟨p, hp⟩ := h
  cases hres : findShortestPath s e links with
  | some r => exact ⟨r, rfl⟩
  | none =>
    exfalso
    have h1 := verts_length_le s links
    have h2 : 1 ≤ (verts s links).length :=
      List.length_pos.mpr (List.ne_nil_of_mem (start_mem_verts s links))
    have hm : bfsMeasure (verts s links) [⟨s, [s], []⟩] [s] < bfsFuel links := by
      simp only [bfsMeasure, bfsFuel, List.length_singleton]
      omega
    exact bfsAux_none (nbrs links) s e (verts s links)
      (fun v pr hpr => nbrs_closure links s v pr hpr) (bfsFuel links) _ _
      (bfsInv_init (nbrs links) s e (verts s links) (start_mem_verts s links)) hm hres p hp

/-- Claim C2: whenever any connecting walk exists in the undirected
adjacency structure, the per-segment BFS returns a connecting path of
minimum hop count (the tie-break among equal-length paths is whatever the
insertion order produces); for the path graph A–B–C–D with waypoints
[A, D] the result is exactly the four nodes and the three connecting
edges, and for the degenerate waypoint list [A, A] the result is exactly
{A}. -/
theorem c2_bfs_shortest :
    (∀ (links : List Link) (s e : String),
        (∃ p, IsPath (nbrs links) s e p) →
        ∃ ns ls, findShortestPath s e links = some (ns, ls) ∧
          IsPath (nbrs links) s e ns ∧
          ∀ q, IsPath (nbrs links) s e q → ns.length ≤ q.length)
    ∧ pathResult ["A", "D"] chainLinks = some (["A", "B", "C", "D"], ["A-B", "B-C", "C-D"])
    ∧ pathResult ["A", "A"] chainLinks = some (["A"], []) := by
  refine ⟨?_, by decide, by decide⟩
  intro links s e h
  obtain ⟨r, hr⟩ := findShortestPath_complete links s e h
  obtain ⟨hp, hmin⟩ := findShortestPath_sound links s e r.1 r.2 hr
  exact ⟨r.1, r.2, hr, hp, hmin⟩

theorem c2_witness :
    (∃ p, IsPath (nbrs chainLinks) "A" "D" p) ∧
    (∃ ns ls, findShortestPath "A" "D" chainLinks = some (ns, ls) ∧
      IsPath (nbrs chainLinks) "A" "D" ns ∧
      ∀ q, IsPath (nbrs chainLinks) "A" "D" q → ns.length ≤ q.length) :=
  ⟨⟨["A", "B", "C", "D"], by decide⟩,
    c2_bfs_shortest.1 chainLinks "A" "D" ⟨["A", "B", "C", "D"], by decide⟩⟩

/-- Claim C3 counterexample: on the 5-ring with waypoints [A, D] the
highlighted node set has size 3 (the chosen shortest chain A–E–D), not
4 as the claim states. -/
theorem c3_counterexample :
    pathResult ["A", "D"] ringLinks = some (["A", "E", "D"], ["E-A", "D-E"]) ∧
    (pathResult ["A", "D"] ringLinks).map (fun r => r.1.length) = some 3 ∧
    (3 : Nat) ≠ 4 := by
  refine ⟨by decide, by decide, by decide⟩

/-- Claim C3 (amended): on the 5-ring A–B–C–D–E–A with waypoints [A, D]
the BFS finds the 2-hop chain A–E–D (2 edges, minimal: every connecting
walk has at least 3 nodes), and the highlighted node set has size 3, not
5. -/
theorem c3_ring_scenario :
    findShortestPath "A" "D" ringLinks = some (["A", "E", "D"], ["E-A", "D-E"]) ∧
    pathResult ["A", "D"] ringLinks = some (["A", "E", "D"], ["E-A", "D-E"]) ∧
    (∀ q, IsPath (nbrs ringLinks) "A" "D" q → 3 ≤ q.length) := by
  have heq : findShortestPath "A" "D" ringLinks = some (["A", "E", "D"], ["E-A", "D-E"]) := by
    decide
  refine ⟨heq, by decide, ?_⟩
  intro q hq
  have hmin := (findShortestPath_sound ringLinks "A" "D" ["A", "E", "D"] ["E-A", "D-E"] heq).2 q hq
  simpa using hmin

theorem c3_witness :
    IsPath (nbrs ringLinks) "A" "D" ["A", "B", "C", "D"] ∧
    3 ≤ (["A", "B", "C", "D"] : List String).length :=
  ⟨by decide, c3_ring_scenario.2.2 ["A", "B", "C", "D"] (by decide)⟩

theorem c1_witness :
    (2 ≤ (["A", "D", "Z"] : List String).length) ∧
    ((pathResult ["A", "D", "Z"] chainLinks = none ↔
        segmentsFound ["A", "D", "Z"] chainLinks = 0) ∧
      ∀ r, pathResult ["A", "D", "Z"] chainLinks = some r →
        ∀ w ∈ (["A", "D", "Z"] : List String), w ∈ r.1) :=
  ⟨by decide, c1_path_result ["A", "D", "Z"] chainLinks (by decide)⟩

end KG
